import Mathlib

/-!
Verification of the segmentation / batch fan-out pipeline of the
sheriff-auctions PDF processor.  Text is modelled as `List Char`; the
handlers' regular-expression code is embedded as executable character-list
functions whose greedy pieces have pairwise disjoint character classes, so
greedy matching coincides with the Python backtracking semantics.
-/

namespace SheriffETL

/-- Whitespace test matching the Python regex class \s on the ASCII
characters occurring in the handlers' cleaned strings (space, tab, newline,
carriage return, vertical tab, form feed). -/
def isWsC (c : Char) : Bool :=
  c == ' ' || c == '\t' || c == '\n' || c == '\r' || c == '\x0b' || c == '\x0c'

/-- ASCII digit, the regex class \d restricted to ASCII input. -/
def isDigitC (c : Char) : Bool := '0' ≤ c && c ≤ '9'

/-- ASCII letter: the class [A-Z] under the IGNORECASE flag. -/
def isAlphaC (c : Char) : Bool := ('A' ≤ c && c ≤ 'Z') || ('a' ≤ c && c ≤ 'z')

/-- ASCII lower-casing, as Python str.lower restricted to ASCII. -/
def lowerC (c : Char) : Char :=
  if 'A' ≤ c && c ≤ 'Z' then Char.ofNat (c.toNat + 32) else c

/-- ASCII upper-casing, as Python str.upper restricted to ASCII. -/
def upperC (c : Char) : Char :=
  if 'a' ≤ c && c ≤ 'z' then Char.ofNat (c.toNat - 32) else c

/-- Python str.strip: remove leading and trailing whitespace. -/
def stripWs (s : List Char) : List Char :=
  ((s.dropWhile isWsC).reverse.dropWhile isWsC).reverse

/-- Case-insensitive literal match of `pat` at the head of the input;
returns the remaining input after the literal. -/
def eatPrefixCI : List Char → List Char → Option (List Char)
  | [], s => some s
  | _ :: _, [] => none
  | p :: ps, c :: cs => if lowerC c = lowerC p then eatPrefixCI ps cs else none

/-- The superset record-start pattern `Case No:\s*[A-Z]*\d+/\d+` (IGNORECASE)
matched at the start of the given suffix, as compiled by
webhook-process.split_into_auctions and by analyze_pdf_for_batching in both
coordinators.  Returns the input remaining after the match; the matched
marker text is the consumed prefix. -/
def matchSuper (s : List Char) : Option (List Char) :=
  match eatPrefixCI (("Case No:").toList) s with
  | none => none
  | some s1 =>
    match (s1.dropWhile isWsC).dropWhile isAlphaC with
    | [] => none
    | c :: rest =>
      if isDigitC c then
        match rest.dropWhile isDigitC with
        | '/' :: rest2 =>
          match rest2 with
          | [] => none
          | d :: rest3 => if isDigitC d then some (rest3.dropWhile isDigitC) else none
        | _ => none
      else none

/-- The plain-numeric record-start pattern `Case No:\s*\d+(?:/\d+)?`
(IGNORECASE) matched at the start of the given suffix, as compiled by
split_into_auctions in process-auction-batch.py and process-complete.py.
When a '/' follows the digits but no digit follows the '/', the optional
group fails and the match ends after the first digit run. -/
def matchPlain (s : List Char) : Option (List Char) :=
  match eatPrefixCI (("Case No:").toList) s with
  | none => none
  | some s1 =>
    match s1.dropWhile isWsC with
    | [] => none
    | c :: rest =>
      if isDigitC c then
        match rest.dropWhile isDigitC with
        | '/' :: d :: rest3 =>
          if isDigitC d then some (rest3.dropWhile isDigitC) else some (rest.dropWhile isDigitC)
        | _ => some (rest.dropWhile isDigitC)
      else none

/-- All positions (paired with the length of the matched marker) at which the
matcher `m` succeeds.  This mirrors `pattern.finditer` for the zero-width
lookahead patterns `(?=(...))`: Python advances one character after each
zero-width match, so every matching position is reported. -/
def scan (m : List Char → Option (List Char)) : List Char → List (Nat × Nat)
  | [] => []
  | c :: cs =>
    match m (c :: cs) with
    | some r =>
      (0, (c :: cs).length - r.length) ::
        (scan m cs).map (fun pl => (pl.1 + 1, pl.2))
    | none => (scan m cs).map (fun pl => (pl.1 + 1, pl.2))

/-- The blocks assembled by split_into_auctions from the marker positions.
Python `pattern.split` on the zero-width pattern returns
`[prefix, group1, seg1, group2, seg2, ...]` and the handler concatenates
`parts[i] + parts[i+1]` for odd `i`; since the lookahead consumes nothing,
segment `i` runs from marker `i` (inclusive) to marker `i+1` (exclusive)
and itself starts with the marker whose text equals group `i`, while the
prefix before the first marker is discarded. -/
def blocksFrom (s : List Char) : List (Nat × Nat) → List (List Char)
  | [] => []
  | [(p, l)] => [(s.drop p).take l ++ s.drop p]
  | (p, l) :: (q, m) :: rest =>
    ((s.drop p).take l ++ (s.take q).drop p) :: blocksFrom s ((q, m) :: rest)

/-- split_into_auctions, parameterized by the marker matcher: with at most
one marker the whole stripped text is the single block (or nothing when the
text strips to empty); with two or more markers the text is split at each
marker, every block stripped, and empty blocks dropped. -/
def splitIntoAuctions (m : List Char → Option (List Char)) (s : List Char) :
    List (List Char) :=
  let ms := scan m s
  if ms.length ≤ 1 then
    if stripWs s = [] then [] else [stripWs s]
  else
    ((blocksFrom s ms).map stripWs).filter (fun a => !a.isEmpty)

namespace WebhookProcess

/-- split_into_auctions as in webhook-process.py (superset marker pattern,
the comment there: fixed to handle case numbers with letter prefixes). -/
def split_into_auctions (s : List Char) : List (List Char) :=
  splitIntoAuctions matchSuper s

end WebhookProcess

namespace ProcessBatch

/-- split_into_auctions as in process-auction-batch.py and
process-complete.py (plain-numeric marker pattern). -/
def split_into_auctions (s : List Char) : List (List Char) :=
  splitIntoAuctions matchPlain s

end ProcessBatch

/-- auction_count as computed by analyze_pdf_for_batching in both
coordinators: the number of finditer matches of the superset pattern. -/
def auction_count (s : List Char) : Nat := (scan matchSuper s).length

/-! ### Text normalizer: clean_text and page-text assembly -/

/-- The final boilerplate pattern `[^\x20-\x7E]` of clean_text: keep only
printable ASCII. -/
def filterPrintable (s : List Char) : List Char :=
  s.filter (fun c => 0x20 ≤ c.toNat && c.toNat ≤ 0x7E)

/-- `re.sub(r'\s+', ' ', text)`: collapse every maximal whitespace run to a
single space.  The flag records whether the current position is inside a run
whose single replacement space was already emitted. -/
def collapseAux : Bool → List Char → List Char
  | _, [] => []
  | inRun, c :: cs =>
    if isWsC c then
      if inRun then collapseAux true cs else ' ' :: collapseAux true cs
    else c :: collapseAux false cs

/-- `re.sub(r'\s+', ' ', text)` on a whole string. -/
def collapseWs (s : List Char) : List Char := collapseAux false s

/-- clean_text from the handlers.  The first ten boilerplate regular
expressions (masthead lines, page footers, banners) are modelled by an
arbitrary text transformation `boiler`; the theorems below hold for every
such transformation.  The final pattern `[^\x20-\x7E]` of the removal list
and the closing `re.sub(r'\s+', ' ', text).strip()` are modelled exactly. -/
def clean_text (boiler : List Char → List Char) (s : List Char) : List Char :=
  stripWs (collapseWs (filterPrintable (boiler s)))

/-- Substring containment, as the Python `in` operator on strings. -/
def hasSubstr (pat : List Char) : List Char → Bool
  | [] => pat.isEmpty
  | c :: cs => pat.isPrefixOf (c :: cs) || hasSubstr pat cs

/-- `"PAUC" in page_text.upper()`. -/
def containsPAUC (page : List Char) : Bool :=
  hasSubstr (("PAUC").toList) (page.map upperC)

/-- The raw-text assembly loop of the handlers: pages with empty text are
skipped, extraction stops (excluding the page) at the first page containing
the PAUC stop marker, and each contributing page is appended followed by a
newline. -/
def buildRawText : List (List Char) → List Char
  | [] => []
  | p :: ps =>
    if p.isEmpty then buildRawText ps
    else if containsPAUC p then []
    else (p ++ [('\n')]) ++ buildRawText ps

/-- The normalizer: page-text assembly followed by clean_text. -/
def normalize (boiler : List Char → List Char) (pages : List (List Char)) :
    List Char :=
  clean_text boiler (buildRawText pages)

/-! ### Batch partitioner -/

/-- `BATCH_SIZE = 50` in both coordinators. -/
def BATCH_SIZE : Nat := 50

/-- `MAX_PARALLEL_WORKERS = 5` (batch-coordinator) and
`ThreadPoolExecutor(max_workers=5)` (webhook-coordinator). -/
def MAX_PARALLEL_WORKERS : Nat := 5

/-- `num_batches = (auction_count + BATCH_SIZE - 1) // BATCH_SIZE`. -/
def num_batches (n b : Nat) : Nat := (n + b - 1) / b

/-- Python slice `l[a:e]`. -/
def pySlice (l : List α) (a e : Nat) : List α := (l.take e).drop a

/-- The batch partition: the coordinators give batch `k` (1-based) the range
`start_auction = (k-1)*B + 1`, `end_auction = min(k*B, N)`, and the worker
slices `all_auctions[start_auction-1:end_auction]`, i.e. batch `k` holds the
records at 0-based offsets `[(k-1)*B, min(k*B, N))`. -/
def partition (records : List α) (b : Nat) : List (List α) :=
  (List.range (num_batches records.length b)).map
    (fun i => pySlice records (i * b) (min ((i + 1) * b) records.length))

/-! ### Batch worker: record selection, extraction loop, upload loop -/

/-- The record range the batch worker processes: do_POST slices
`all_auctions[start_auction-1:end_auction]` and feeds every record of the
slice to extraction and upload.  The payload field `existing_case_numbers`
sent by webhook-coordinator is accepted but never read by
process-auction-batch.py, which is why it is an unused argument here. -/
def worker_selected_records (allAuctions : List (List Char))
    (startAuction endAuction : Nat)
    (_existingCaseNumbers : List (List Char)) : List (List Char) :=
  pySlice allAuctions (startAuction - 1) endAuction

/-- The natural key of a record: the group `([A-Z]*\d+/\d+)` of the first
occurrence of `Case No:\s*([A-Z]*\d+/\d+)` (IGNORECASE), as extracted by
get_existing_case_numbers_from_pdf when building the duplicate list.  This
helper reads the key at the head of the given suffix. -/
def caseKeyAt (t : List Char) : Option (List Char) :=
  match eatPrefixCI (("Case No:").toList) t with
  | none => none
  | some s1 =>
    let s2 := s1.dropWhile isWsC
    match s2.dropWhile isAlphaC with
    | [] => none
    | c :: rest =>
      if isDigitC c then
        match rest.dropWhile isDigitC with
        | '/' :: rest2 =>
          match rest2 with
          | [] => none
          | d :: _ =>
            if isDigitC d then
              some (s2.takeWhile isAlphaC ++ (c :: rest).takeWhile isDigitC
                ++ ('/') :: rest2.takeWhile isDigitC)
            else none
        | _ => none
      else none

/-- The natural key of a record: first match anywhere in the text. -/
def findCaseNumber : List Char → Option (List Char)
  | [] => none
  | c :: cs =>
    match caseKeyAt (c :: cs) with
    | some k => some k
    | none => findCaseNumber cs

/-- One entry of the `processed_auctions` list built by
process_auctions_with_openai: either the extracted record data or the error
placeholder dict appended when the record's try-block raised. -/
inductive Entry (β : Type) where
  | extracted (data : β)
  | failed (case_number : List Char) (raw_text : List Char)
deriving DecidableEq, Repr

/-- `auction[:500] + "..." if len(auction) > 500 else auction`. -/
def truncRaw (a : List Char) : List Char :=
  if 500 < a.length then a.take 500 ++ ("...").toList else a

/-- The per-record loop of process_auctions_with_openai, starting at 0-based
index `i`: each record yields exactly one entry; the external
OpenAI-parse-geocode pipeline is the oracle `extract` (`none` means the
record's try-block raised); on failure the appended error entry carries
`case_number = "ERROR_{i+1}"` (1-based) and the truncated record text, and
the loop continues with the next record. -/
def processFrom (extract : Nat → List Char → Option β) :
    Nat → List (List Char) → List (Entry β)
  | _, [] => []
  | i, a :: rest =>
    (match extract i a with
     | some d => Entry.extracted d
     | none =>
       Entry.failed (("ERROR_").toList ++ (Nat.repr (i + 1)).toList) (truncRaw a)) ::
    processFrom extract (i + 1) rest

/-- process_auctions_with_openai from process-auction-batch.py, as a function
of the extraction oracle. -/
def process_auctions_with_openai (extract : Nat → List Char → Option β)
    (auctions : List (List Char)) : List (Entry β) :=
  processFrom extract 0 auctions

/-- One entry of the `upload_results` list of upload_to_supabase. -/
structure UploadResult where
  status : List Char
  case_number : List Char
deriving DecidableEq, Repr

/-- upload_to_supabase from process-auction-batch.py: every processed record
gets exactly one result entry carrying its case number; a POST outcome
outside {200, 201} (oracle `push` false) yields an error entry and the loop
continues with the next record. -/
def upload_to_supabase (push : α → Bool) (caseNumber : α → List Char)
    (auctions : List α) : List UploadResult :=
  auctions.map (fun a =>
    if push a then ⟨("success").toList, caseNumber a⟩
    else ⟨("error").toList, caseNumber a⟩)

/-! ### Coordinator: per-batch outcomes and aggregation -/

/-- The outcome dict returned by webhook-coordinator.process_single_batch,
restricted to the keys the aggregation reads: `status`, `batch_number`,
`auctions_processed` (absent on the error paths, where the aggregation's
`r.get('auctions_processed', 0)` reads 0) and the error text. -/
structure BatchOutcome where
  status : List Char
  batch_number : Nat
  auctions_processed : Option Nat
  error : Option (List Char)
deriving DecidableEq, Repr

/-- The worker's HTTP reply as seen by process_single_batch. -/
inductive BatchHttpReply where
  | ok (batchNumber : Nat) (auctionsProcessed : Nat)
  | httpError (code : Nat)
  | timeout
deriving DecidableEq, Repr

/-- process_single_batch from webhook-coordinator.py: a 200 reply passes the
worker's result dict through; a non-200 reply yields a status-error outcome;
`requests.Timeout` yields a status-error outcome carrying the timeout
message — not a distinct timeout status, and without any
`auctions_processed` count. -/
def process_single_batch (reply : BatchHttpReply) (batchNumber : Nat) :
    BatchOutcome :=
  match reply with
  | .ok bn n => ⟨("success").toList, bn, some n, none⟩
  | .httpError code =>
    ⟨("error").toList, batchNumber, none,
      some (("HTTP ").toList ++ (Nat.repr code).toList)⟩
  | .timeout =>
    ⟨("error").toList, batchNumber, none,
      some (("Request timeout after 10 minutes").toList)⟩

/-- `total_processed = sum(r.get('auctions_processed', 0) for r in batch_results)`. -/
def total_processed (rs : List BatchOutcome) : Nat :=
  (rs.map (fun r => r.auctions_processed.getD 0)).sum

/-- `successful_batches = len([r for r in batch_results if r.get('status') == 'success'])`. -/
def successful_batches (rs : List BatchOutcome) : Nat :=
  (rs.filter (fun r => r.status = ("success").toList)).length

/-! ### Sequential path: token-ceiling check between 50-record chunks -/

/-- `AUCTION_BATCH_SIZE = 50` in webhook-process.process_single_pdf. -/
def AUCTION_BATCH_SIZE : Nat := 50

/-- Chunking worker with explicit fuel; each step consumes at least one
element, so fuel equal to the list length suffices. -/
def chunks50Go : Nat → List α → List (List α)
  | 0, _ => []
  | _ + 1, [] => []
  | fuel + 1, c :: cs => ((c :: cs).take 50) :: chunks50Go fuel ((c :: cs).drop 50)

/-- `auction_batches = [auctions[i:i+50] for i in range(0, len(auctions), 50)]`. -/
def chunks50 (l : List α) : List (List α) := chunks50Go l.length l

/-- The running totals observed at each extraction-call launch inside one
50-record chunk: every record of the chunk is processed unconditionally. -/
def chunkTrace (total : Nat) : List Nat → List Nat
  | [] => []
  | x :: xs => total :: chunkTrace (total + x) xs

/-- The chunk loop of process_single_pdf: chunks are processed in full, and
only after a chunk completes is the running token total compared against the
ceiling (`if total_tokens_used > max_tokens: break`). -/
def webhookTrace (maxTokens : Nat) (total : Nat) : List (List Nat) → List Nat
  | [] => []
  | c :: rest =>
    chunkTrace total c ++
    (if maxTokens < total + c.sum then []
     else webhookTrace maxTokens (total + c.sum) rest)

/-- The sequence of running token totals right before each extraction call
launched by process_single_pdf, given the per-call token costs. -/
def process_single_pdf_call_totals (costs : List Nat) (maxTokens : Nat) :
    List Nat :=
  webhookTrace maxTokens 0 (chunks50 costs)

/-! ### Lemmas: batch partitioner -/

theorem num_batches_nil (b : Nat) (hb : 1 ≤ b) : num_batches 0 b = 0 := by
  unfold num_batches
  exact Nat.div_eq_of_lt (by omega)

theorem partition_nil (b : Nat) (hb : 1 ≤ b) : partition ([] : List α) b = [] := by
  simp [partition, num_batches_nil b hb]

theorem partition_length (r : List α) (b : Nat) :
    (partition r b).length = num_batches r.length b := by
  simp [partition]

theorem num_batches_ceil (n b : Nat) (hb : 1 ≤ b) :
    n ≤ num_batches n b * b ∧ num_batches n b * b < n + b := by
  have hq := Nat.div_add_mod (n + b - 1) b
  have hm : (n + b - 1) % b < b := Nat.mod_lt _ (by omega)
  unfold num_batches
  rw [Nat.mul_comm]
  omega

theorem partition_get (r : List α) (b k : Nat) (hk : k < (partition r b).length) :
    (partition r b).get ⟨k, hk⟩ =
      pySlice r (k * b) (min ((k + 1) * b) r.length) := by
  simp [partition]

theorem pySlice_drop (r : List α) (b a e : Nat) :
    pySlice (r.drop b) a e = pySlice r (b + a) (b + e) := by
  unfold pySlice
  rw [List.take_drop, List.drop_drop]

theorem partition_cons (r : List α) (b : Nat) (hb : 1 ≤ b) (hr : r ≠ []) :
    partition r b = r.take b :: partition (r.drop b) b := by
  have hn : 1 ≤ r.length := List.length_pos.mpr hr
  by_cases hnb : r.length ≤ b
  · have hdrop : r.drop b = [] := List.drop_eq_nil_of_le hnb
    have hone : num_batches r.length b = 1 := by
      unfold num_batches
      exact Nat.div_eq_of_lt_le (by omega) (by omega)
    rw [hdrop, partition_nil b hb]
    unfold partition
    rw [hone]
    have hmin : (0 + 1) * b ⊓ r.length = r.length := by omega
    simp only [List.range_succ, List.range_zero, List.nil_append, List.map_cons,
      List.map_nil, pySlice, hmin, Nat.zero_mul, List.drop_zero, List.take_length]
    rw [List.take_of_length_le hnb]
  · push_neg at hnb
    have hlen : (r.drop b).length = r.length - b := List.length_drop b r
    have hsucc : num_batches r.length b = num_batches (r.length - b) b + 1 := by
      unfold num_batches
      have h1 : r.length + b - 1 = (r.length - b + b - 1) + b := by omega
      rw [h1, Nat.add_div_right _ (by omega)]
    apply List.ext_get
    · simp [partition_length, hsucc, hlen]
    · intro k h1 h2
      rw [partition_get]
      match k with
      | 0 =>
        show pySlice r (0 * b) (min ((0 + 1) * b) r.length) = r.take b
        simp [pySlice, Nat.min_eq_left (by omega : 1 * b ≤ r.length)]
      | Nat.succ j =>
        have hj : j < (partition (r.drop b) b).length := by
          simpa using Nat.lt_of_succ_lt_succ h2
        show _ = (r.take b :: partition (r.drop b) b).get ⟨j + 1, h2⟩
        have hget : (r.take b :: partition (r.drop b) b).get ⟨j + 1, h2⟩ =
            (partition (r.drop b) b).get ⟨j, hj⟩ := rfl
        rw [hget, partition_get, pySlice_drop, hlen]
        congr 1
        · show (j + 1) * b = b + j * b
          ring
        · have hx : (Nat.succ j + 1) * b = (j + 1) * b + b := by
            show (j + 1 + 1) * b = (j + 1) * b + b
            ring
          omega

theorem partition_flatten (b : Nat) (hb : 1 ≤ b) (r : List α) :
    (partition r b).flatten = r := by
  generalize hn : r.length = n
  induction n using Nat.strong_induction_on generalizing r with
  | _ n ih =>
    match r with
    | [] => rw [partition_nil b hb]; rfl
    | c :: cs =>
      rw [partition_cons _ b hb (by simp), List.flatten_cons]
      have hlt : ((c :: cs).drop b).length < n := by
        rw [List.length_drop]
        simp only [List.length_cons] at hn ⊢
        omega
      rw [ih _ hlt _ rfl]
      exact List.take_append_drop b (c :: cs)

theorem partition_last (r : List α) (b : Nat) (hb : 1 ≤ b) (hr : r ≠ []) :
    ∃ lb, (partition r b).getLast? = some lb ∧ 1 ≤ lb.length ∧ lb.length ≤ b := by
  have hn : 1 ≤ r.length := List.length_pos.mpr hr
  have hceil := num_batches_ceil r.length b hb
  have hm1 : 1 ≤ num_batches r.length b := by
    rcases Nat.eq_zero_or_pos (num_batches r.length b) with h0 | h1
    · exfalso
      have h00 : 0 * b = 0 := Nat.zero_mul b
      rw [h0] at hceil
      omega
    · exact h1
  have hmul : (num_batches r.length b - 1) * b + b = num_batches r.length b * b := by
    have h1 : num_batches r.length b - 1 + 1 = num_batches r.length b := by omega
    calc (num_batches r.length b - 1) * b + b
        = (num_batches r.length b - 1 + 1) * b := by ring
      _ = num_batches r.length b * b := by rw [h1]
  refine ⟨pySlice r ((num_batches r.length b - 1) * b)
      (min ((num_batches r.length b - 1 + 1) * b) r.length), ?_, ?_, ?_⟩
  · rw [List.getLast?_eq_getElem?, partition_length]
    unfold partition
    rw [List.getElem?_map, List.getElem?_range (by omega), Option.map_some']
  · unfold pySlice
    rw [List.length_drop, List.length_take]
    have h1 : num_batches r.length b - 1 + 1 = num_batches r.length b := by omega
    rw [h1]
    omega
  · unfold pySlice
    rw [List.length_drop, List.length_take]
    have h1 : num_batches r.length b - 1 + 1 = num_batches r.length b := by omega
    rw [h1]
    omega

theorem partition_get_entry (r : List α) (b k j : Nat)
    (hk : k < (partition r b).length)
    (hj : j < ((partition r b).get ⟨k, hk⟩).length) :
    ((partition r b).get ⟨k, hk⟩)[j]? = r[k * b + j]? := by
  have hbatch := partition_get r b k hk
  rw [hbatch] at hj ⊢
  have hlen : (pySlice r (k * b) ((k + 1) * b ⊓ r.length)).length =
      (k + 1) * b ⊓ r.length ⊓ r.length - k * b := by
    unfold pySlice
    rw [List.length_drop, List.length_take]
  rw [hlen] at hj
  unfold pySlice
  rw [List.getElem?_drop, List.getElem?_take_of_lt (by omega)]

/-- Claim C1: for every sequence of N ≥ 0 records and every batchSize ≥ 1 the
partitioner produces ceil(N/batchSize) batches (the count m is characterized
by N ≤ m*batchSize < N + batchSize); batch k (1-based, index k-1 here) is
exactly the slice records[(k-1)*batchSize : min(k*batchSize, N)], whose entry
j is the record at 0-based offset (k-1)*batchSize + j; concatenating the
batches in batch order yields the original record sequence exactly; and when
N ≥ 1 the last batch has between 1 and batchSize records. -/
theorem claim_C1 {α : Type} (records : List α) (batchSize : Nat)
    (hb : 1 ≤ batchSize) :
    (partition records batchSize).length = num_batches records.length batchSize ∧
    records.length ≤ num_batches records.length batchSize * batchSize ∧
    num_batches records.length batchSize * batchSize < records.length + batchSize ∧
    (∀ k (hk : k < (partition records batchSize).length),
      (partition records batchSize).get ⟨k, hk⟩ =
        pySlice records (k * batchSize)
          (min ((k + 1) * batchSize) records.length)) ∧
    (∀ k j (hk : k < (partition records batchSize).length),
      j < ((partition records batchSize).get ⟨k, hk⟩).length →
      ((partition records batchSize).get ⟨k, hk⟩)[j]? =
        records[k * batchSize + j]?) ∧
    (partition records batchSize).flatten = records ∧
    (records ≠ [] → ∃ lb, (partition records batchSize).getLast? = some lb ∧
      1 ≤ lb.length ∧ lb.length ≤ batchSize) :=
  ⟨partition_length records batchSize, (num_batches_ceil _ _ hb).1,
    (num_batches_ceil _ _ hb).2,
    fun k hk => partition_get records batchSize k hk,
    fun k j hk hj => partition_get_entry records batchSize k j hk hj,
    partition_flatten batchSize hb records,
    fun hr => partition_last records batchSize hb hr⟩

set_option maxRecDepth 4000 in
/-- Witness for claim C1 at the spec's own scenario: 163 records with batch
size 50 give 4 batches of sizes 50, 50, 50, 13, whose concatenation is the
original sequence. -/
theorem claim_C1_witness :
    (1 ≤ 50 ∧ (partition (List.range 163) 50).flatten = List.range 163) ∧
    (partition (List.range 163) 50).map List.length = [50, 50, 50, 13] :=
  ⟨⟨by decide, ((claim_C1 (List.range 163) 50 (by decide)).2.2.2.2.2.1 : _)⟩,
    by decide⟩

/-! ### Lemmas: record segmenter -/

theorem eatPrefixCI_some_length :
    ∀ {pat s r : List Char}, eatPrefixCI pat s = some r →
      r.length + pat.length = s.length := by
  intro pat
  induction pat with
  | nil =>
    intro s r h
    simp only [eatPrefixCI, Option.some.injEq] at h
    simp [← h]
  | cons p ps ih =>
    intro s r h
    match s with
    | [] => simp [eatPrefixCI] at h
    | c :: cs =>
      simp only [eatPrefixCI] at h
      split at h
      · have := ih h
        simp only [List.length_cons]
        omega
      · exact absurd h (by simp)

theorem eatPrefixCI_cons {p : Char} {ps s r : List Char}
    (h : eatPrefixCI (p :: ps) s = some r) :
    ∃ c cs, s = c :: cs ∧ lowerC c = lowerC p := by
  match s with
  | [] => simp [eatPrefixCI] at h
  | c :: cs =>
    simp only [eatPrefixCI] at h
    split at h
    · exact ⟨c, cs, rfl, by assumption⟩
    · exact absurd h (by simp)

theorem lowerC_c_not_ws {c : Char} (h : lowerC c = 'c') : isWsC c = false := by
  by_contra hws
  rw [Bool.not_eq_false] at hws
  simp only [isWsC, Bool.or_eq_true, beq_iff_eq] at hws
  rcases hws with ((((h1 | h1) | h1) | h1) | h1) | h1 <;>
    (subst h1; exact absurd h (by decide))

theorem matchSuper_some {s r : List Char} (h : matchSuper s = some r) :
    (∃ c cs, s = c :: cs ∧ lowerC c = 'c') ∧ r.length < s.length := by
  unfold matchSuper at h
  split at h
  · exact absurd h (by simp)
  · rename_i s1 heat
    have hlen1 : s1.length + 8 = s.length := by
      have hx := eatPrefixCI_some_length heat
      simpa using hx
    have hhead : ∃ c cs, s = c :: cs ∧ lowerC c = 'c' := by
      have h8 : ("Case No:").toList = 'C' :: ("ase No:").toList := rfl
      rw [h8] at heat
      obtain ⟨c, cs, hs, hc⟩ := eatPrefixCI_cons heat
      refine ⟨c, cs, hs, ?_⟩
      rw [hc]
      decide
    refine ⟨hhead, ?_⟩
    split at h
    · exact absurd h (by simp)
    · rename_i c rest hsc
      have hrest : rest.length + 1 ≤ s1.length := by
        have e1 : ((s1.dropWhile isWsC).dropWhile isAlphaC).length =
            rest.length + 1 := by
          rw [hsc]
          rfl
        have e2 := (List.dropWhile_suffix (l := s1.dropWhile isWsC)
          isAlphaC).length_le
        have e3 := (List.dropWhile_suffix (l := s1) isWsC).length_le
        omega
      split at h
      · split at h
        · rename_i rest2 hsd
          have hrest2 : rest2.length + 1 ≤ rest.length := by
            have e1 : (rest.dropWhile isDigitC).length = rest2.length + 1 := by
              rw [hsd]
              rfl
            have e2 := (List.dropWhile_suffix (l := rest) isDigitC).length_le
            omega
          split at h
          · exact absurd h (by simp)
          · rename_i d rest3
            split at h
            · simp only [Option.some.injEq] at h
              have e4 := (List.dropWhile_suffix (l := rest3) isDigitC).length_le
              rw [← h]
              simp only [List.length_cons] at hrest2
              omega
            · exact absurd h (by simp)
        · exact absurd h (by simp)
      · exact absurd h (by simp)

theorem scan_mem {f : List Char → Option (List Char)} :
    ∀ {s : List Char} {p l : Nat}, (p, l) ∈ scan f s →
      ∃ r, f (s.drop p) = some r ∧ l = (s.drop p).length - r.length := by
  intro s
  induction s with
  | nil =>
    intro p l h
    simp [scan] at h
  | cons c cs ih =>
    intro p l h
    have hmap : (p, l) ∈ (scan f cs).map (fun pl => (pl.1 + 1, pl.2)) →
        ∃ r, f ((c :: cs).drop p) = some r ∧
          l = ((c :: cs).drop p).length - r.length := by
      intro hmem
      obtain ⟨⟨p1, l1⟩, hmem1, heq⟩ := List.mem_map.mp hmem
      simp only [Prod.mk.injEq] at heq
      obtain ⟨r, hr, hl⟩ := ih hmem1
      refine ⟨r, ?_, ?_⟩
      · rw [← heq.1, List.drop_succ_cons]
        exact hr
      · rw [← heq.1, List.drop_succ_cons, ← heq.2]
        exact hl
    rw [scan] at h
    cases hm : f (c :: cs) with
    | some r =>
      rw [hm] at h
      rcases List.mem_cons.mp h with heq | hmem
      · simp only [Prod.mk.injEq] at heq
        refine ⟨r, ?_, ?_⟩
        · rw [heq.1, List.drop_zero]
          exact hm
        · rw [heq.1, List.drop_zero, heq.2]
      · exact hmap hmem
    | none =>
      rw [hm] at h
      exact hmap h

theorem mem_stripWs {c : Char} {l : List Char} (h : c ∈ stripWs l) : c ∈ l := by
  unfold stripWs at h
  rw [List.mem_reverse] at h
  have h1 := (List.dropWhile_suffix isWsC).subset h
  rw [List.mem_reverse] at h1
  exact (List.dropWhile_suffix isWsC).subset h1

theorem stripWs_eq_nil_iff {l : List Char} :
    stripWs l = [] ↔ ∀ c ∈ l, isWsC c = true := by
  constructor
  · intro h c hc
    unfold stripWs at h
    rw [List.reverse_eq_nil_iff, List.dropWhile_eq_nil_iff] at h
    have hall : ∀ x ∈ l.dropWhile isWsC, isWsC x = true := by
      intro x hx
      exact h x (List.mem_reverse.mpr hx)
    have hsplit := List.takeWhile_append_dropWhile (p := isWsC) (l := l)
    rw [← hsplit] at hc
    rcases List.mem_append.mp hc with h1 | h2
    · exact List.mem_takeWhile_imp h1
    · exact hall c h2
  · intro h
    unfold stripWs
    rw [List.dropWhile_eq_nil_iff.mpr h]
    rfl

theorem stripWs_ne_nil {l : List Char} (h : ∃ c ∈ l, isWsC c = false) :
    stripWs l ≠ [] := by
  intro hnil
  obtain ⟨c, hc, hws⟩ := h
  have := stripWs_eq_nil_iff.mp hnil c hc
  rw [this] at hws
  exact absurd hws (by simp)

theorem blocksFrom_length (s : List Char) :
    ∀ ms : List (Nat × Nat), (blocksFrom s ms).length = ms.length := by
  intro ms
  induction ms with
  | nil => rfl
  | cons hd tl ih =>
    obtain ⟨p, l⟩ := hd
    cases tl with
    | nil => rfl
    | cons hd2 tl2 =>
      obtain ⟨q, m⟩ := hd2
      show (blocksFrom s ((p, l) :: (q, m) :: tl2)).length = _
      rw [blocksFrom]
      simp only [List.length_cons]
      rw [ih]
      simp

theorem blocksFrom_mem_shape (s : List Char) :
    ∀ (ms : List (Nat × Nat)) (blk : List Char), blk ∈ blocksFrom s ms →
      ∃ p l rest2, (p, l) ∈ ms ∧ blk = (s.drop p).take l ++ rest2 := by
  intro ms
  induction ms with
  | nil =>
    intro blk h
    simp [blocksFrom] at h
  | cons hd tl ih =>
    obtain ⟨p, l⟩ := hd
    cases tl with
    | nil =>
      intro blk h
      rw [blocksFrom] at h
      rcases List.mem_singleton.mp h with heq
      exact ⟨p, l, s.drop p, List.mem_singleton.mpr rfl, heq⟩
    | cons hd2 tl2 =>
      obtain ⟨q, m⟩ := hd2
      intro blk h
      rw [blocksFrom] at h
      rcases List.mem_cons.mp h with heq | hmem
      · exact ⟨p, l, (s.take q).drop p, List.mem_cons_self _ _, heq⟩
      · obtain ⟨p1, l1, rest2, hmem1, heq1⟩ := ih blk hmem
        exact ⟨p1, l1, rest2, List.mem_cons_of_mem _ hmem1, heq1⟩

theorem blocksFrom_zip (s : List Char) :
    ∀ ms : List (Nat × Nat), ms ≠ [] →
      blocksFrom s ms =
        (ms.zip ((ms.map Prod.fst).tail ++ [s.length])).map
          (fun pq => pySlice s pq.1.1 (pq.1.1 + pq.1.2) ++ pySlice s pq.1.1 pq.2) := by
  intro ms
  induction ms with
  | nil => intro h; exact absurd rfl h
  | cons hd tl ih =>
    intro _
    obtain ⟨p, l⟩ := hd
    cases tl with
    | nil =>
      show [(s.drop p).take l ++ s.drop p] = _
      simp only [List.map_cons, List.map_nil, List.tail_cons, List.nil_append,
        List.zip_cons_cons, List.zip_nil_right]
      unfold pySlice
      rw [List.take_drop, List.take_length]
    | cons hd2 tl2 =>
      obtain ⟨q, m⟩ := hd2
      show ((s.drop p).take l ++ (s.take q).drop p) :: blocksFrom s ((q, m) :: tl2) = _
      rw [ih (by simp)]
      simp only [List.map_cons, List.tail_cons, List.zip_cons_cons]
      congr 1
      unfold pySlice
      rw [List.take_drop]

theorem splitSuper_block_ne_nil {s blk : List Char}
    (h : blk ∈ blocksFrom s (scan matchSuper s)) : stripWs blk ≠ [] := by
  obtain ⟨p, l, rest2, hmem, heq⟩ := blocksFrom_mem_shape s _ blk h
  obtain ⟨r, hr, hl⟩ := scan_mem hmem
  obtain ⟨⟨c, cs, hcs, hc⟩, hlen⟩ := matchSuper_some hr
  apply stripWs_ne_nil
  refine ⟨c, ?_, lowerC_c_not_ws hc⟩
  rw [hcs] at hl hlen
  simp only [List.length_cons] at hlen hl
  obtain ⟨l1, rfl⟩ : ∃ l1, l = l1 + 1 := ⟨l - 1, by omega⟩
  rw [heq, hcs, List.take_succ_cons]
  exact List.mem_append_left _ (List.mem_cons_self _ _)

/-- Claim C2 (amended): for a cleaned text with m ≥ 2 record-start markers,
split_into_auctions returns exactly m non-empty blocks; but block i is the
whitespace-trim of the i-th marker's matched text concatenated with the span
from marker i (inclusive) to marker i+1 (exclusive; the last block spans to
end of text) — the zero-width Python re.split leaves the marker inside the
following segment while the handler re-prepends the captured group, so each
marker is duplicated at the start of its block, and the text before the
first marker is dropped; hence the concatenation of the untrimmed blocks
does not reconstruct the original text. -/
theorem claim_C2_amended (s : List Char)
    (h2 : 2 ≤ (scan matchSuper s).length) :
    WebhookProcess.split_into_auctions s =
      ((scan matchSuper s).zip
          (((scan matchSuper s).map Prod.fst).tail ++ [s.length])).map
        (fun pq => stripWs (pySlice s pq.1.1 (pq.1.1 + pq.1.2) ++
          pySlice s pq.1.1 pq.2)) ∧
    (WebhookProcess.split_into_auctions s).length = (scan matchSuper s).length ∧
    ∀ blk ∈ WebhookProcess.split_into_auctions s, blk ≠ [] := by
  have hnonempty : ∀ blk ∈ (blocksFrom s (scan matchSuper s)).map stripWs,
      (!blk.isEmpty) = true := by
    intro blk hblk
    obtain ⟨b0, hb0, rfl⟩ := List.mem_map.mp hblk
    have hne := splitSuper_block_ne_nil hb0
    simpa using hne
  have hsplit : WebhookProcess.split_into_auctions s =
      (blocksFrom s (scan matchSuper s)).map stripWs := by
    unfold WebhookProcess.split_into_auctions splitIntoAuctions
    rw [if_neg (by omega)]
    exact List.filter_eq_self.mpr hnonempty
  refine ⟨?_, ?_, ?_⟩
  · rw [hsplit, blocksFrom_zip s _ (by
      intro hnil
      rw [hnil] at h2
      simp at h2)]
    rw [List.map_map]
    rfl
  · rw [hsplit, List.length_map, blocksFrom_length]
  · intro blk hblk
    rw [hsplit] at hblk
    obtain ⟨b0, hb0, rfl⟩ := List.mem_map.mp hblk
    exact splitSuper_block_ne_nil hb0

/-- Counterexample to claim C2 as stated: on a two-marker text the code's
blocks do not equal the marker-to-marker spans (each block starts with the
marker text duplicated), so their concatenation cannot reconstruct the
original text. -/
theorem claim_C2_counterexample :
    auction_count (("Case No: 1/11 a Case No: 2/22 b").toList) = 2 ∧
    WebhookProcess.split_into_auctions (("Case No: 1/11 a Case No: 2/22 b").toList) =
      [("Case No: 1/11Case No: 1/11 a").toList,
       ("Case No: 2/22Case No: 2/22 b").toList] ∧
    WebhookProcess.split_into_auctions (("Case No: 1/11 a Case No: 2/22 b").toList) ≠
      [("Case No: 1/11 a").toList, ("Case No: 2/22 b").toList] :=
  ⟨by decide, by decide, by decide⟩

/-- Witness for the amended claim C2 on a concrete two-marker text. -/
theorem claim_C2_witness :
    2 ≤ (scan matchSuper (("Case No: 1/11 a Case No: 2/22 b").toList)).length ∧
    (WebhookProcess.split_into_auctions
        (("Case No: 1/11 a Case No: 2/22 b").toList)).length =
      (scan matchSuper (("Case No: 1/11 a Case No: 2/22 b").toList)).length :=
  ⟨by decide, (claim_C2_amended _ (by decide)).2.1⟩

/-- Claim C8: with zero or one record-start marker, split_into_auctions
returns the single trimmed text when it is non-empty and the empty sequence
when the text is empty or all whitespace. -/
theorem claim_C8 (s : List Char) (h1 : (scan matchSuper s).length ≤ 1) :
    ((∀ c ∈ s, isWsC c = true) → WebhookProcess.split_into_auctions s = []) ∧
    ((∃ c ∈ s, isWsC c = false) →
      WebhookProcess.split_into_auctions s = [stripWs s]) := by
  have hif : WebhookProcess.split_into_auctions s =
      if stripWs s = [] then [] else [stripWs s] := by
    unfold WebhookProcess.split_into_auctions splitIntoAuctions
    rw [if_pos h1]
  constructor
  · intro hall
    rw [hif, if_pos (stripWs_eq_nil_iff.mpr hall)]
  · intro hex
    rw [hif, if_neg (stripWs_ne_nil hex)]

/-- Witness for claim C8: a marker-free text is returned whole, and an
all-whitespace text yields the empty sequence. -/
theorem claim_C8_witness :
    ((scan matchSuper (("hello world").toList)).length ≤ 1 ∧
      WebhookProcess.split_into_auctions (("hello world").toList) =
        [stripWs (("hello world").toList)]) ∧
    ((scan matchSuper (("   ").toList)).length ≤ 1 ∧
      WebhookProcess.split_into_auctions (("   ").toList) = []) :=
  ⟨⟨by decide, (claim_C8 _ (by decide)).2 ⟨'h', by decide, by decide⟩⟩,
    ⟨by decide, (claim_C8 _ (by decide)).1 (by decide)⟩⟩

/-- Counterexample to claim C4 as stated: the handlers do not share one
marker pattern.  On a cleaned text whose two case numbers carry letter
prefixes, the coordinator's analysis counts 2 auctions with the superset
pattern, while the batch worker's split (plain-numeric pattern, as in
process-complete.py) finds no marker and returns a single merged block. -/
theorem claim_C4_counterexample :
    auction_count (("Case No: D1/2024 a Case No: D2/2024 b").toList) = 2 ∧
    (ProcessBatch.split_into_auctions
        (("Case No: D1/2024 a Case No: D2/2024 b").toList)).length = 1 :=
  ⟨by decide, by decide⟩

/-- Claim C4 (amended): the marker patterns differ between handlers, and are
in fact incomparable.  The coordinators count with the superset pattern
(optional letters, digits, slash, digits) while the batch worker splits with
the plain-numeric pattern (digits with an optional slash part).  On a
letter-prefixed text the count is 2 but the worker produces 1 merged block
(letter-prefixed records are silently merged, though webhook-process's own
split does produce 2); on a slashless-numeric text the count is 0 but the
worker produces 2 blocks. -/
theorem claim_C4_amended :
    (auction_count (("Case No: D1/2024 a Case No: D2/2024 b").toList) = 2 ∧
      (ProcessBatch.split_into_auctions
          (("Case No: D1/2024 a Case No: D2/2024 b").toList)).length = 1 ∧
      (WebhookProcess.split_into_auctions
          (("Case No: D1/2024 a Case No: D2/2024 b").toList)).length = 2) ∧
    (auction_count (("Case No: 1 a Case No: 2 b").toList) = 0 ∧
      (ProcessBatch.split_into_auctions
          (("Case No: 1 a Case No: 2 b").toList)).length = 2) :=
  ⟨⟨by decide, by decide, by decide⟩, ⟨by decide, by decide⟩⟩

/-! ### Lemmas: text normalizer -/

theorem dropWhile_head_false {α : Type} {p : α → Bool} :
    ∀ {l : List α} {c : α} {rest : List α},
      l.dropWhile p = c :: rest → p c = false := by
  intro l
  induction l with
  | nil =>
    intro c rest h
    simp [List.dropWhile] at h
  | cons x xs ih =>
    intro c rest h
    rw [List.dropWhile_cons] at h
    split at h
    · exact ih h
    · rename_i hx
      cases h
      simpa using hx

theorem suffix_getLast?_eq {α : Type} {w v : List α} (h : w <:+ v)
    (hw : w ≠ []) : v.getLast? = w.getLast? := by
  obtain ⟨t, rfl⟩ := h
  rw [List.getLast?_append]
  cases hw2 : w.getLast? with
  | none => exact absurd (List.getLast?_eq_none_iff.mp hw2) hw
  | some x => rfl

theorem mem_collapseAux {c : Char} :
    ∀ {f : Bool} {l : List Char}, c ∈ collapseAux f l → c ∈ l ∨ c = ' ' := by
  intro f l
  induction l generalizing f with
  | nil =>
    intro h
    simp [collapseAux] at h
  | cons x xs ih =>
    intro h
    rw [collapseAux] at h
    split at h
    · split at h
      · rcases ih h with h1 | h1
        · exact Or.inl (List.mem_cons_of_mem _ h1)
        · exact Or.inr h1
      · rcases List.mem_cons.mp h with h1 | h1
        · exact Or.inr h1
        · rcases ih h1 with h2 | h2
          · exact Or.inl (List.mem_cons_of_mem _ h2)
          · exact Or.inr h2
    · rcases List.mem_cons.mp h with h1 | h1
      · exact Or.inl (h1 ▸ List.mem_cons_self _ _)
      · rcases ih h1 with h2 | h2
        · exact Or.inl (List.mem_cons_of_mem _ h2)
        · exact Or.inr h2

theorem collapseAux_true_head :
    ∀ {l : List Char} {c : Char},
      (collapseAux true l).head? = some c → isWsC c = false := by
  intro l
  induction l with
  | nil =>
    intro c h
    simp [collapseAux] at h
  | cons x xs ih =>
    intro c h
    rw [collapseAux] at h
    split at h
    · exact ih h
    · rename_i hx
      rw [List.head?_cons, Option.some.injEq] at h
      rw [← h]
      simpa using hx

theorem chain'_collapseAux :
    ∀ (f : Bool) (l : List Char),
      List.Chain' (fun a b => ¬(isWsC a = true ∧ isWsC b = true))
        (collapseAux f l) := by
  intro f l
  induction l generalizing f with
  | nil => simp [collapseAux]
  | cons x xs ih =>
    rw [collapseAux]
    split
    · split
      · exact ih true
      · rw [List.chain'_cons']
        refine ⟨?_, ih true⟩
        intro y hy
        have := collapseAux_true_head hy
        simp [this]
    · rw [List.chain'_cons']
      rename_i hx
      refine ⟨?_, ih false⟩
      intro y hy hboth
      exact absurd hboth.1 hx

theorem chain'_stripWs {R : Char → Char → Prop} {l : List Char}
    (h : List.Chain' R l) : List.Chain' R (stripWs l) := by
  unfold stripWs
  have h1 : List.Chain' R (l.dropWhile isWsC) :=
    h.suffix (List.dropWhile_suffix isWsC)
  have h2 : List.Chain' (flip R) (l.dropWhile isWsC).reverse :=
    List.chain'_reverse.mpr h1
  have h3 : List.Chain' (flip R) ((l.dropWhile isWsC).reverse.dropWhile isWsC) :=
    h2.suffix (List.dropWhile_suffix isWsC)
  exact List.chain'_reverse.mpr h3

theorem stripWs_head_not_ws {l : List Char} {c : Char}
    (h : (stripWs l).head? = some c) : isWsC c = false := by
  unfold stripWs at h
  rw [List.head?_reverse] at h
  have hne : (l.dropWhile isWsC).reverse.dropWhile isWsC ≠ [] := by
    intro hnil
    rw [hnil] at h
    simp at h
  have hlast := suffix_getLast?_eq (List.dropWhile_suffix isWsC) hne
  rw [← hlast, List.getLast?_reverse] at h
  cases hd : l.dropWhile isWsC with
  | nil =>
    rw [hd] at h
    simp at h
  | cons c2 rest =>
    rw [hd] at h
    rw [List.head?_cons, Option.some.injEq] at h
    rw [← h]
    exact dropWhile_head_false hd

theorem stripWs_getLast_not_ws {l : List Char} {c : Char}
    (h : (stripWs l).getLast? = some c) : isWsC c = false := by
  unfold stripWs at h
  rw [List.getLast?_reverse] at h
  cases hd : (l.dropWhile isWsC).reverse.dropWhile isWsC with
  | nil =>
    rw [hd] at h
    simp at h
  | cons c2 rest =>
    rw [hd] at h
    rw [List.head?_cons, Option.some.injEq] at h
    rw [← h]
    exact dropWhile_head_false hd

theorem buildRawText_all_empty :
    ∀ {pages : List (List Char)}, (∀ p ∈ pages, p = []) →
      buildRawText pages = [] := by
  intro pages
  induction pages with
  | nil => intro _; rfl
  | cons p ps ih =>
    intro h
    rw [buildRawText]
    rw [if_pos (by simp [h p (List.mem_cons_self _ _)])]
    exact ih (fun q hq => h q (List.mem_cons_of_mem _ hq))

/-- Claim C9: the normalizer's output contains only printable ASCII
characters, has no run of two or more consecutive whitespace characters and
no leading or trailing whitespace; and when every page is empty the result
is the empty string.  The theorem holds for every behaviour `boiler` of the
ten boilerplate-removal regular expressions (which, matching nothing on
empty input, map the empty string to itself — the hypothesis `hb`). -/
theorem claim_C9 (boiler : List Char → List Char) (pages : List (List Char))
    (hb : boiler [] = []) :
    (∀ c ∈ normalize boiler pages, 0x20 ≤ c.toNat ∧ c.toNat ≤ 0x7E) ∧
    List.Chain' (fun a b => ¬(isWsC a = true ∧ isWsC b = true))
      (normalize boiler pages) ∧
    (∀ c, (normalize boiler pages).head? = some c → isWsC c = false) ∧
    (∀ c, (normalize boiler pages).getLast? = some c → isWsC c = false) ∧
    ((∀ p ∈ pages, p = []) → normalize boiler pages = []) := by
  refine ⟨?_, ?_, ?_, ?_, ?_⟩
  · intro c hc
    unfold normalize clean_text at hc
    have h1 := mem_stripWs hc
    rcases mem_collapseAux h1 with h2 | h2
    · have h3 := (List.mem_filter.mp h2).2
      simp only [Bool.and_eq_true, decide_eq_true_eq] at h3
      exact h3
    · rw [h2]
      refine ⟨by decide, by decide⟩
  · exact chain'_stripWs (chain'_collapseAux false _)
  · intro c hc
    exact stripWs_head_not_ws hc
  · intro c hc
    exact stripWs_getLast_not_ws hc
  · intro hall
    unfold normalize clean_text
    rw [buildRawText_all_empty hall, hb]
    rfl

/-- Witness for claim C9 with the identity boilerplate transformation on a
concrete page list. -/
theorem claim_C9_witness :
    (fun x : List Char => x) [] = ([] : List Char) ∧
    List.Chain' (fun a b => ¬(isWsC a = true ∧ isWsC b = true))
      (normalize (fun x => x) [("ab  cd").toList]) :=
  ⟨rfl, (claim_C9 (fun x => x) [("ab  cd").toList] rfl).2.1⟩

/-! ### Lemmas: extraction and upload loops -/

theorem processFrom_length {β : Type} (extract : Nat → List Char → Option β) :
    ∀ (start : Nat) (auctions : List (List Char)),
      (processFrom extract start auctions).length = auctions.length := by
  intro start auctions
  induction auctions generalizing start with
  | nil => rfl
  | cons a rest ih => simp [processFrom, ih]

theorem processFrom_getElem {β : Type} (extract : Nat → List Char → Option β) :
    ∀ (start : Nat) (auctions : List (List Char)) (j : Nat)
      (hj : j < auctions.length),
      (processFrom extract start auctions)[j]? =
        some (match extract (start + j) (auctions.get ⟨j, hj⟩) with
          | some d => Entry.extracted d
          | none => Entry.failed
              (("ERROR_").toList ++ (Nat.repr (start + j + 1)).toList)
              (truncRaw (auctions.get ⟨j, hj⟩))) := by
  intro start auctions
  induction auctions generalizing start with
  | nil =>
    intro j hj
    simp at hj
  | cons a rest ih =>
    intro j hj
    cases j with
    | zero =>
      rw [processFrom]
      rw [List.getElem?_cons_zero]
      simp only [Nat.add_zero]
      rfl
    | succ j1 =>
      rw [processFrom, List.getElem?_cons_succ]
      have hj1 : j1 < rest.length := by simpa using Nat.lt_of_succ_lt_succ hj
      rw [ih (start + 1) j1 hj1]
      have harith : start + 1 + j1 = start + (j1 + 1) := by omega
      rw [harith]
      rfl

/-- Claim C10: the extraction stage returns one entry per input record, in
input order: entry j is the extracted data when the record's pipeline
succeeds and the ERROR_{j+1} placeholder (1-based index, truncated record
text) when it raises, so the number of attempted records is always the
output length. -/
theorem claim_C10 {β : Type} (extract : Nat → List Char → Option β)
    (auctions : List (List Char)) :
    (process_auctions_with_openai extract auctions).length = auctions.length ∧
    (∀ j (hj : j < auctions.length),
      (process_auctions_with_openai extract auctions)[j]? =
        some (match extract j (auctions.get ⟨j, hj⟩) with
          | some d => Entry.extracted d
          | none => Entry.failed
              (("ERROR_").toList ++ (Nat.repr (j + 1)).toList)
              (truncRaw (auctions.get ⟨j, hj⟩)))) := by
  constructor
  · exact processFrom_length extract 0 auctions
  · intro j hj
    have h := processFrom_getElem extract 0 auctions j hj
    simpa using h

/-- Witness for claim C10: with an oracle failing on the second record, the
output keeps both positions and carries the ERROR_2 placeholder. -/
theorem claim_C10_witness :
    1 < ([("a").toList, ("b").toList] : List (List Char)).length ∧
    (process_auctions_with_openai
        (fun j _ => if j = 0 then some () else none)
        [("a").toList, ("b").toList])[1]? =
      some (Entry.failed (("ERROR_2").toList) (("b").toList)) := by
  refine ⟨by decide, ?_⟩
  have h := (claim_C10 (fun j _ => if j = 0 then some () else none)
    [("a").toList, ("b").toList]).2 1 (by decide)
  rw [h]
  decide

/-- Claim C6: a record's extraction failure is caught and recorded as an
error entry attributed to that record (ERROR_{i+1}); sibling records are
unaffected (two oracles agreeing away from i give identical entries away
from i) and the batch is never aborted (one entry per record regardless of
failures); the upload loop likewise yields exactly one result entry per
record, attributed by its case number, error or not. -/
theorem claim_C6 {β : Type} (extract extract2 : Nat → List Char → Option β)
    (auctions : List (List Char)) (i : Nat)
    (hagree : ∀ j, j ≠ i → extract j = extract2 j) :
    (process_auctions_with_openai extract auctions).length = auctions.length ∧
    (∀ (hi : i < auctions.length), extract i (auctions.get ⟨i, hi⟩) = none →
      (process_auctions_with_openai extract auctions)[i]? =
        some (Entry.failed (("ERROR_").toList ++ (Nat.repr (i + 1)).toList)
          (truncRaw (auctions.get ⟨i, hi⟩)))) ∧
    (∀ j, j ≠ i → (process_auctions_with_openai extract auctions)[j]? =
      (process_auctions_with_openai extract2 auctions)[j]?) ∧
    (∀ (push : List Char → Bool) (caseNumber : List Char → List Char)
        (l : List (List Char)),
      (upload_to_supabase push caseNumber l).length = l.length ∧
      ∀ j (hj : j < l.length),
        (upload_to_supabase push caseNumber l)[j]? =
          some (if push (l.get ⟨j, hj⟩)
            then ⟨("success").toList, caseNumber (l.get ⟨j, hj⟩)⟩
            else ⟨("error").toList, caseNumber (l.get ⟨j, hj⟩)⟩)) := by
  refine ⟨processFrom_length extract 0 auctions, ?_, ?_, ?_⟩
  · intro hi hnone
    have h := (claim_C10 extract auctions).2 i hi
    rw [h, hnone]
  · intro j hj
    by_cases hlt : j < auctions.length
    · have h1 := (claim_C10 extract auctions).2 j hlt
      have h2 := (claim_C10 extract2 auctions).2 j hlt
      rw [h1, h2, hagree j hj]
    · have hlen1 : (process_auctions_with_openai extract auctions).length ≤ j := by
        rw [(claim_C10 extract auctions).1]
        omega
      have hlen2 : (process_auctions_with_openai extract2 auctions).length ≤ j := by
        rw [(claim_C10 extract2 auctions).1]
        omega
      rw [List.getElem?_eq_none hlen1, List.getElem?_eq_none hlen2]
  · intro push caseNumber l
    refine ⟨List.length_map _ _, ?_⟩
    intro j hj
    unfold upload_to_supabase
    rw [List.getElem?_map, List.getElem?_eq_getElem hj, Option.map_some']
    rfl

/-- Witness for claim C6: two oracles differing only at index 0 give the
same entry at index 1, and a failing record yields its attributed error
entry. -/
theorem claim_C6_witness :
    ((1 : Nat) ≠ 0) ∧
    (process_auctions_with_openai (fun _ _ => (none : Option Unit))
        [("a").toList, ("b").toList])[1]? =
      (process_auctions_with_openai
        (fun j _ => if j = 0 then some () else (none : Option Unit))
        [("a").toList, ("b").toList])[1]? := by
  refine ⟨by decide, ?_⟩
  exact (claim_C6 (fun _ _ => (none : Option Unit))
    (fun j _ => if j = 0 then some () else none)
    [("a").toList, ("b").toList] 0
    (by
      intro j hj
      funext a
      simp [hj])).2.2.1 1 (by decide)

/-- Claim C3 evaluated at a failing input: the batch worker selects and
processes every record of its range even when the record's natural key is in
the existing-key list supplied by the coordinator — the payload field is
never read, so nothing is skipped. -/
theorem claim_C3_eval :
    worker_selected_records
        [("Case No: 123/2024 x").toList, ("Case No: 9/2024 y").toList] 1 2
        [("123/2024").toList] =
      [("Case No: 123/2024 x").toList, ("Case No: 9/2024 y").toList] ∧
    findCaseNumber (("Case No: 123/2024 x").toList) =
      some (("123/2024").toList) ∧
    (("123/2024").toList) ∈ [("123/2024").toList] ∧
    (process_auctions_with_openai (fun _ _ => some ())
        (worker_selected_records
          [("Case No: 123/2024 x").toList, ("Case No: 9/2024 y").toList] 1 2
          [("123/2024").toList])).length = 2 :=
  ⟨by decide, by decide, by decide, by decide⟩

/-! ### Lemmas: token-ceiling check -/

theorem chunks50Go_mem_length {α : Type} :
    ∀ (fuel : Nat) (l : List α) (c : List α),
      c ∈ chunks50Go fuel l → c.length ≤ 50 := by
  intro fuel
  induction fuel with
  | zero =>
    intro l c h
    simp [chunks50Go] at h
  | succ f ih =>
    intro l c h
    match l with
    | [] => simp [chunks50Go] at h
    | x :: xs =>
      rw [chunks50Go] at h
      rcases List.mem_cons.mp h with h1 | h1
      · rw [h1]
        exact List.length_take_le 50 (x :: xs)
      · exact ih _ _ h1

theorem chunks50_flatten {α : Type} :
    ∀ (fuel : Nat) (l : List α), l.length ≤ fuel →
      (chunks50Go fuel l).flatten = l := by
  intro fuel
  induction fuel with
  | zero =>
    intro l h
    have hl : l = [] := List.length_eq_zero.mp (Nat.le_zero.mp h)
    rw [hl]
    rfl
  | succ f ih =>
    intro l h
    match l with
    | [] => rfl
    | x :: xs =>
      rw [chunks50Go, List.flatten_cons, ih _ (by
        rw [List.length_drop]
        simp only [List.length_cons] at h ⊢
        omega)]
      exact List.take_append_drop 50 (x :: xs)

theorem chunkTrace_le :
    ∀ (c : List Nat) (t : Nat) (x : Nat), x ∈ chunkTrace t c → x ≤ t + c.sum := by
  intro c
  induction c with
  | nil =>
    intro t x h
    simp [chunkTrace] at h
  | cons y ys ih =>
    intro t x h
    rw [chunkTrace] at h
    rcases List.mem_cons.mp h with h1 | h1
    · simp [h1]
    · have := ih (t + y) x h1
      simp only [List.sum_cons]
      omega

theorem chunkTrace_length (c : List Nat) (t : Nat) :
    (chunkTrace t c).length = c.length := by
  induction c generalizing t with
  | nil => rfl
  | cons y ys ih => simp [chunkTrace, ih]

theorem chunkTrace_filter_head {K : Nat} :
    ∀ (c : List Nat) (t : Nat), t ≤ K →
      ((chunkTrace t c).filter (fun x => decide (K < x))).length ≤
        c.length - 1 := by
  intro c
  match c with
  | [] =>
    intro t _
    simp [chunkTrace]
  | y :: ys =>
    intro t ht
    rw [chunkTrace, List.filter_cons]
    rw [if_neg (by simpa using Nat.not_lt.mpr ht)]
    calc ((chunkTrace (t + y) ys).filter (fun x => decide (K < x))).length
        ≤ (chunkTrace (t + y) ys).length := List.length_filter_le _ _
      _ = ys.length := chunkTrace_length ys (t + y)
      _ = (y :: ys).length - 1 := by simp

theorem webhookTrace_filter :
    ∀ (chunks : List (List Nat)) (K t : Nat), t ≤ K →
      (∀ c ∈ chunks, c.length ≤ 50) →
      ((webhookTrace K t chunks).filter (fun x => decide (K < x))).length ≤ 49 := by
  intro chunks
  induction chunks with
  | nil =>
    intro K t _ _
    simp [webhookTrace]
  | cons c rest ih =>
    intro K t ht hlen
    rw [webhookTrace, List.filter_append, List.length_append]
    by_cases hK : K < t + c.sum
    · rw [if_pos hK]
      have h1 := chunkTrace_filter_head c t ht
      have h2 := hlen c (List.mem_cons_self _ _)
      simp only [List.filter_nil, List.length_nil]
      omega
    · rw [if_neg hK]
      have h1 : (chunkTrace t c).filter (fun x => decide (K < x)) = [] := by
        rw [List.filter_eq_nil_iff]
        intro x hx
        have := chunkTrace_le c t x hx
        simp only [decide_eq_true_eq]
        omega
      rw [h1]
      have h2 := ih K (t + c.sum) (by omega)
        (fun d hd => hlen d (List.mem_cons_of_mem _ hd))
      simpa using h2

/-- Counterexample to claim C5 as stated: with a token ceiling of 1 and 60
queued records each costing one token, the sequential loop checks the total
only after a full 50-record chunk, so 48 extraction calls are launched while
the running total already exceeds the ceiling — far more than the claimed
race tolerance of maxConcurrency - 1 = 4. -/
theorem claim_C5_counterexample :
    ((process_single_pdf_call_totals (List.replicate 60 1) 1).filter
        (fun t => decide (1 < t))).length = 48 ∧
    MAX_PARALLEL_WORKERS - 1 < 48 :=
  ⟨by decide, by decide⟩

/-- Claim C5 (amended): the sequential loop of process_single_pdf compares
the running token total against the ceiling only between its 50-record
chunks, so once the total exceeds the ceiling at most
AUCTION_BATCH_SIZE - 1 = 49 further extraction calls (the remainder of the
current chunk) are launched before the loop stops; the leftover records are
simply not processed — no quota_exceeded marking exists. -/
theorem claim_C5_amended (costs : List Nat) (maxTokens : Nat) :
    ((process_single_pdf_call_totals costs maxTokens).filter
        (fun t => decide (maxTokens < t))).length ≤ AUCTION_BATCH_SIZE - 1 := by
  unfold process_single_pdf_call_totals AUCTION_BATCH_SIZE
  exact webhookTrace_filter (chunks50 costs) maxTokens 0 (Nat.zero_le _)
    (fun c hc => chunks50Go_mem_length _ _ _ hc)

/-- Counterexample to claim C7 as stated: the coordinator records a
timed-out batch with status error (carrying a timeout message), not with a
distinct timeout status, and the batch contributes no record count to the
aggregated total — records completed before the timeout are not counted. -/
theorem claim_C7_counterexample :
    (process_single_batch BatchHttpReply.timeout 2).status ≠ ("timeout").toList ∧
    (process_single_batch BatchHttpReply.timeout 2).status = ("error").toList ∧
    total_processed
      [process_single_batch (BatchHttpReply.ok 1 50) 1,
       process_single_batch BatchHttpReply.timeout 2] = 50 :=
  ⟨by decide, by decide, by decide⟩

/-- Claim C7 (amended): a batch whose HTTP call times out yields an outcome
with status error and the message "Request timeout after 10 minutes"; it
carries no auctions_processed count, so it contributes 0 to the
coordinator's aggregated total regardless of how many of its records had
completed before the timeout. -/
theorem claim_C7_amended (n : Nat) (others : List BatchOutcome) :
    (process_single_batch BatchHttpReply.timeout n).status = ("error").toList ∧
    (process_single_batch BatchHttpReply.timeout n).error =
      some (("Request timeout after 10 minutes").toList) ∧
    total_processed (process_single_batch BatchHttpReply.timeout n :: others) =
      total_processed others := by
  refine ⟨rfl, rfl, ?_⟩
  unfold total_processed process_single_batch
  simp

end SheriffETL
